import Mathlib

/-!
Verification development for an MLP-plus-genetic-algorithm trainer.

The network code (mlp.h / mlp.cc) is embedded as a scalar-generic record with a
genome codec; the forward pass is instantiated at the real numbers.  The genetic
algorithm (ga.h / ga.cc) is embedded over the rationals with the shared random
stream made explicit: every call to the random utilities consumes the next
element of an abstract raw stream, so one run is a pure function of the stream.
-/

namespace MLPGA

/-- Activation function selector, mirroring `ActivationType` in mlp.h. -/
inductive ActivationType
  | SIGMOID
  | TANH
  | RELU
deriving DecidableEq

/-- Error kinds surfaced by the network code (the `std::invalid_argument`
throws in mlp.cc). -/
inductive MLPError
  | invalidTopology
  | genomeSizeMismatch
  | inputSizeMismatch
  | sizeMismatch
deriving DecidableEq

/-- Shallow embedding of the `MLP` object state (mlp.h): the layer widths, the
activation choice, the weight tensor `weights[layer][from][to]` and the bias
tensor `biases[layer][neuron]`.  The scalar type is a parameter because the
genome codec moves values without arithmetic; the forward pass uses `ℝ`.  The
C++ field `total_params` is a pure function of `layer_sizes` (see
`totalParams`), recomputed instead of stored. -/
structure MLP (α : Type) where
  layer_sizes : List ℕ
  act : ActivationType
  weights : List (List (List α))
  biases : List (List α)
deriving DecidableEq

/-- Total parameter count as accumulated in the MLP constructor:
`layers[i] * layers[i+1]` weights plus `layers[i+1]` biases per transition. -/
def totalParams : List ℕ → ℕ
  | n0 :: n1 :: rest => n0 * n1 + n1 + totalParams (n1 :: rest)
  | _ => 0
termination_by l => l.length

/-- Flattening of one transition in the canonical order written by
`MLP::encodeChromosome`: the weight matrix row-major, then the bias vector. -/
def encPair (Wb : List (List α) × List α) : List α :=
  Wb.1.flatten ++ Wb.2

/-- MLP::encodeChromosome (mlp.cc): concatenate every transition's weights
(row-major) followed by its biases, layer by layer.  The C++ loop walks
`weights[i]` and `biases[i]` in lockstep, hence the zip. -/
def encodeChromosome (net : MLP α) : List α :=
  ((net.weights.zip net.biases).map encPair).flatten

/-- Refill one weight matrix from the front of the genome, row by row; the C++
decode loop iterates over the current tensor shapes, so each new row takes
exactly the length of the row it replaces. -/
def decodeMatrix : List (List α) → List α → List (List α) × List α
  | [], g => ([], g)
  | r :: rs, g =>
    let step := decodeMatrix rs (g.drop r.length)
    (g.take r.length :: step.1, step.2)

/-- Refill every transition (weights, then biases) from the genome, consuming
it in the same canonical order that `encodeChromosome` writes. -/
def decodeLayers : List (List (List α) × List α) → List α →
    List (List (List α) × List α) × List α
  | [], g => ([], g)
  | Wb :: rest, g =>
    let mw := decodeMatrix Wb.1 g
    let b := mw.2.take Wb.2.length
    let step := decodeLayers rest (mw.2.drop Wb.2.length)
    ((mw.1, b) :: step.1, step.2)

/-- MLP::decodeChromosome (mlp.cc): reject a genome whose length differs from
the total parameter count, otherwise overwrite every weight and bias in
canonical order.  The size check precedes any write. -/
def decodeChromosome (net : MLP α) (g : List α) : Except MLPError (MLP α) :=
  if g.length = totalParams net.layer_sizes then
    let d := decodeLayers (net.weights.zip net.biases) g
    .ok { net with weights := d.1.map Prod.fst, biases := d.1.map Prod.snd }
  else .error .genomeSizeMismatch

/-- MLP::setWeights is a thin wrapper around decodeChromosome. -/
def setWeights (net : MLP α) (g : List α) : Except MLPError (MLP α) :=
  decodeChromosome net g

/-- Caller-visible object state after `setWeights` under C++ exception
semantics: the length check throws before any element is assigned, so on error
the network is unchanged. -/
def setWeightsRun (net : MLP α) (g : List α) : MLP α :=
  match setWeights net g with
  | .ok m => m
  | .error _ => net

/-- Shape of one weight matrix: `rows` rows, each of length `cols`. -/
def shapedMatrix (rows cols : ℕ) (W : List (List α)) : Prop :=
  W.length = rows ∧ ∀ r ∈ W, r.length = cols

/-- Tensor shapes produced by the MLP constructor for a given topology: one
`n_i × n_{i+1}` weight matrix and one length-`n_{i+1}` bias vector per
consecutive layer pair. -/
def wellShaped : List ℕ → List (List (List α)) → List (List α) → Prop
  | n0 :: n1 :: rest, W :: Ws, b :: bs =>
      shapedMatrix n0 n1 W ∧ b.length = n1 ∧ wellShaped (n1 :: rest) Ws bs
  | [_], [], [] => True
  | _, _, _ => False
termination_by l _ _ => l.length

/-- Well-formedness of an embedded network: its tensors have exactly the shapes
the constructor allocates for its topology. -/
def WellFormed (net : MLP α) : Prop :=
  wellShaped net.layer_sizes net.weights net.biases

theorem decodeMatrix_flatten (rows : List (List α)) (t : List α) :
    decodeMatrix rows (rows.flatten ++ t) = (rows, t) := by
  induction rows with
  | nil => simp [decodeMatrix]
  | cons r rs ih =>
    have h1 : (r :: rs).flatten ++ t = r ++ (rs.flatten ++ t) := by
      simp [List.flatten_cons]
    rw [decodeMatrix, h1, List.take_left, List.drop_left, ih]

theorem decodeLayers_enc (pairs : List (List (List α) × List α)) (t : List α) :
    decodeLayers pairs ((pairs.map encPair).flatten ++ t) = (pairs, t) := by
  induction pairs with
  | nil => simp [decodeLayers]
  | cons Wb rest ih =>
    have h1 : ((Wb :: rest).map encPair).flatten ++ t =
        Wb.1.flatten ++ (Wb.2 ++ ((rest.map encPair).flatten ++ t)) := by
      simp [encPair, List.flatten_cons]
    rw [decodeLayers, h1, decodeMatrix_flatten, List.take_left, List.drop_left, ih]

theorem wellShaped_lengths :
    ∀ (sizes : List ℕ) (Ws : List (List (List α))) (bs : List (List α)),
      wellShaped sizes Ws bs → Ws.length = bs.length := by
  intro sizes
  induction sizes with
  | nil => intro Ws bs h; simp [wellShaped] at h
  | cons n0 tail ih =>
    intro Ws bs h
    cases tail with
    | nil =>
      cases Ws with
      | nil => cases bs with
        | nil => rfl
        | cons b bs2 => simp [wellShaped] at h
      | cons W Ws2 => simp [wellShaped] at h
    | cons n1 rest =>
      cases Ws with
      | nil => simp [wellShaped] at h
      | cons W Ws2 =>
        cases bs with
        | nil => simp [wellShaped] at h
        | cons b bs2 =>
          rw [wellShaped] at h
          simp [ih Ws2 bs2 h.2.2]

theorem shapedMatrix_flatten_length (rows cols : ℕ) (W : List (List α))
    (h : shapedMatrix rows cols W) : W.flatten.length = rows * cols := by
  obtain ⟨hlen, hrow⟩ := h
  subst hlen
  induction W with
  | nil => simp
  | cons r rs ih =>
    have hr : r.length = cols := hrow r (by simp)
    have ih2 := ih fun x hx => hrow x (by simp [hx])
    simp [List.flatten_cons, hr, ih2, Nat.succ_mul, Nat.add_comm]

theorem encode_length :
    ∀ (sizes : List ℕ) (Ws : List (List (List α))) (bs : List (List α)),
      wellShaped sizes Ws bs →
      (((Ws.zip bs).map encPair).flatten).length = totalParams sizes := by
  intro sizes
  induction sizes with
  | nil => intro Ws bs h; simp [wellShaped] at h
  | cons n0 tail ih =>
    intro Ws bs h
    cases tail with
    | nil =>
      cases Ws with
      | nil => cases bs with
        | nil => simp [totalParams]
        | cons b bs2 => simp [wellShaped] at h
      | cons W Ws2 => simp [wellShaped] at h
    | cons n1 rest =>
      cases Ws with
      | nil => simp [wellShaped] at h
      | cons W Ws2 =>
        cases bs with
        | nil => simp [wellShaped] at h
        | cons b bs2 =>
          rw [wellShaped] at h
          obtain ⟨hW, hb, hrest⟩ := h
          have hWlen := shapedMatrix_flatten_length n0 n1 W hW
          rw [totalParams]
          simp [List.zip_cons_cons, encPair, List.flatten_cons, hWlen, hb,
            ih Ws2 bs2 hrest]
          ring

theorem zip_fst_snd (l : List (α × β)) :
    (l.map Prod.fst).zip (l.map Prod.snd) = l := by
  induction l with
  | nil => rfl
  | cons p ps ih => simp [ih]

/-- Number of genome slots one transition consumes. -/
def pairLen (Wb : List (List α) × List α) : ℕ :=
  (Wb.1.map List.length).sum + Wb.2.length

theorem decodeMatrix_take (rows : List (List α)) (g : List α)
    (h : (rows.map List.length).sum ≤ g.length) :
    (decodeMatrix rows g).1.flatten = g.take ((rows.map List.length).sum) ∧
    (decodeMatrix rows g).2 = g.drop ((rows.map List.length).sum) ∧
    (decodeMatrix rows g).1.map List.length = rows.map List.length := by
  induction rows generalizing g with
  | nil => simp [decodeMatrix]
  | cons r rs ih =>
    have hsum : r.length + (rs.map List.length).sum ≤ g.length := by
      simpa using h
    have hrec : (rs.map List.length).sum ≤ (g.drop r.length).length := by
      rw [List.length_drop]; omega
    obtain ⟨h1, h2, h3⟩ := ih (g.drop r.length) hrec
    refine ⟨?_, ?_, ?_⟩
    · rw [decodeMatrix]
      simp only [List.flatten_cons, h1, List.map_cons, List.sum_cons]
      rw [List.take_add]
    · rw [decodeMatrix]
      simp only [h2, List.map_cons, List.sum_cons, List.drop_drop]
    · rw [decodeMatrix]
      simp only [List.map_cons, h3, List.length_take, List.map_cons]
      congr 1
      omega

theorem decodeLayers_take (pairs : List (List (List α) × List α)) (g : List α)
    (h : (pairs.map pairLen).sum ≤ g.length) :
    ((decodeLayers pairs g).1.map encPair).flatten = g.take ((pairs.map pairLen).sum) ∧
    (decodeLayers pairs g).2 = g.drop ((pairs.map pairLen).sum) := by
  induction pairs generalizing g with
  | nil => simp [decodeLayers]
  | cons Wb rest ih =>
    have hp : pairLen Wb = (Wb.1.map List.length).sum + Wb.2.length := rfl
    have hsum : pairLen Wb + (rest.map pairLen).sum ≤ g.length := by
      simpa using h
    rw [hp] at hsum
    have hW : (Wb.1.map List.length).sum ≤ g.length := by omega
    obtain ⟨hm1, hm2, -⟩ := decodeMatrix_take Wb.1 g hW
    have hrest : (rest.map pairLen).sum ≤
        (((decodeMatrix Wb.1 g).2).drop Wb.2.length).length := by
      rw [hm2, List.length_drop, List.length_drop]; omega
    obtain ⟨h1, h2⟩ := ih (((decodeMatrix Wb.1 g).2).drop Wb.2.length) hrest
    rw [hm2, List.drop_drop] at h1 h2
    constructor
    · rw [decodeLayers]
      simp only [List.map_cons, List.flatten_cons, encPair, hm1, hm2]
      rw [List.drop_drop, h1, List.sum_cons, hp, List.take_add, List.take_add]
    · rw [decodeLayers]
      simp only [hm2]
      rw [List.drop_drop, h2, List.drop_drop, List.map_cons, List.sum_cons, hp]

theorem pairLen_sum_eq_encode_length (Ws : List (List (List α))) (bs : List (List α)) :
    (((Ws.zip bs).map pairLen).sum) = (((Ws.zip bs).map encPair).flatten).length := by
  induction Ws generalizing bs with
  | nil => simp
  | cons W Ws2 ih =>
    cases bs with
    | nil => simp
    | cons b bs2 =>
      simp [pairLen, encPair, ih bs2, List.length_flatten]
      omega

/-- Claim C3: for every at-least-2-layer well-formed network, decoding the
encoded genome restores the identical network, and for every genome of the
correct length, decoding succeeds and re-encoding returns the original genome
(encode and decode are mutually inverse in the canonical order). -/
theorem encode_decode_roundtrip {α : Type} (net : MLP α)
    (hwf : WellFormed net) (h2 : 2 ≤ net.layer_sizes.length) :
    decodeChromosome net (encodeChromosome net) = .ok net ∧
    ∀ g : List α, g.length = totalParams net.layer_sizes →
      ∃ net2, decodeChromosome net g = .ok net2 ∧ encodeChromosome net2 = g := by
  have hlen : (((net.weights.zip net.biases).map encPair).flatten).length
      = totalParams net.layer_sizes :=
    encode_length net.layer_sizes net.weights net.biases hwf
  have hWb : net.weights.length = net.biases.length :=
    wellShaped_lengths net.layer_sizes net.weights net.biases hwf
  constructor
  · rw [decodeChromosome]
    rw [if_pos (by simpa [encodeChromosome] using hlen)]
    have hdec : decodeLayers (net.weights.zip net.biases) (encodeChromosome net)
        = (net.weights.zip net.biases, []) := by
      have := decodeLayers_enc (net.weights.zip net.biases) ([] : List α)
      simpa [encodeChromosome] using this
    simp only [hdec]
    have hfst : (net.weights.zip net.biases).map Prod.fst = net.weights :=
      List.map_fst_zip net.weights net.biases (le_of_eq hWb)
    have hsnd : (net.weights.zip net.biases).map Prod.snd = net.biases :=
      List.map_snd_zip net.weights net.biases (ge_of_eq hWb)
    cases net
    simp_all
  · intro g hg
    have hsum : (((net.weights.zip net.biases).map pairLen).sum) ≤ g.length := by
      rw [pairLen_sum_eq_encode_length, hlen, hg]
    obtain ⟨h1, _⟩ := decodeLayers_take (net.weights.zip net.biases) g hsum
    refine ⟨{ net with
        weights := (decodeLayers (net.weights.zip net.biases) g).1.map Prod.fst,
        biases := (decodeLayers (net.weights.zip net.biases) g).1.map Prod.snd }, ?_, ?_⟩
    · rw [decodeChromosome, if_pos (by rw [hg])]
    · rw [encodeChromosome]
      simp only [zip_fst_snd]
      rw [h1, pairLen_sum_eq_encode_length, hlen, ← hg, List.take_length]

/-- Witness for C3 at a concrete 2-to-1 network over ℚ. -/
theorem encode_decode_roundtrip_witness :
    decodeChromosome ⟨[2, 1], .SIGMOID, [[[1], [2]]], [[3]]⟩
      (encodeChromosome (⟨[2, 1], .SIGMOID, [[[1], [2]]], [[3]]⟩ : MLP ℚ)) =
      .ok ⟨[2, 1], .SIGMOID, [[[1], [2]]], [[3]]⟩ ∧
    ∃ net2, decodeChromosome (⟨[2, 1], .SIGMOID, [[[1], [2]]], [[3]]⟩ : MLP ℚ)
        [4, 5, 6] = .ok net2 ∧ encodeChromosome net2 = [4, 5, 6] := by
  have h := encode_decode_roundtrip (⟨[2, 1], .SIGMOID, [[[1], [2]]], [[3]]⟩ : MLP ℚ)
    (by simp [WellFormed, wellShaped, shapedMatrix]) (by simp)
  exact ⟨h.1, h.2 [4, 5, 6] (by simp [totalParams])⟩

/-- Claim C4: decoding a genome whose length differs from the parameter count
always fails with the size-mismatch error and leaves the network unchanged. -/
theorem decode_wrong_length {α : Type} (net : MLP α) (g : List α)
    (hg : g.length ≠ totalParams net.layer_sizes) :
    decodeChromosome net g = .error .genomeSizeMismatch ∧
    setWeightsRun net g = net := by
  have hd : decodeChromosome net g = .error .genomeSizeMismatch := by
    rw [decodeChromosome, if_neg hg]
  exact ⟨hd, by rw [setWeightsRun, setWeights, hd]⟩

/-- Witness for C4: the empty genome is rejected by a 2-to-1 network. -/
theorem decode_wrong_length_witness :
    decodeChromosome (⟨[2, 1], .SIGMOID, [[[1], [2]]], [[3]]⟩ : MLP ℚ) [] =
      .error .genomeSizeMismatch ∧
    setWeightsRun (⟨[2, 1], .SIGMOID, [[[1], [2]]], [[3]]⟩ : MLP ℚ) [] =
      ⟨[2, 1], .SIGMOID, [[[1], [2]]], [[3]]⟩ :=
  decode_wrong_length ⟨[2, 1], .SIGMOID, [[[1], [2]]], [[3]]⟩ [] (by simp [totalParams])

/-- MLP::sigmoid (mlp.cc): the logistic function. -/
noncomputable def sigmoid (x : ℝ) : ℝ := 1 / (1 + Real.exp (-x))

/-- MLP::tanh_activation. -/
noncomputable def tanh_activation (x : ℝ) : ℝ := Real.tanh x

/-- MLP::relu. -/
def relu (x : ℝ) : ℝ := max 0 x

/-- MLP::activate dispatches on the configured activation type. -/
noncomputable def activate : ActivationType → ℝ → ℝ
  | .SIGMOID => sigmoid
  | .TANH => tanh_activation
  | .RELU => relu

/-- Weighted input of destination neuron `j` (inner loop of MLP::forward): the
bias plus the dot product of the previous activations with the incoming weight
column; the i-loop runs over the previous layer's activations while indexing
`weights[layer][i][j]`, which the zip reproduces for well-formed shapes. -/
def neuronSum (W : List (List ℝ)) (b : List ℝ) (x : List ℝ) (j : ℕ) : ℝ :=
  b.getD j 0 + (List.zipWith (fun xi row => xi * row.getD j 0) x W).sum

/-- Pre-activation vector of the next layer; the j-loop bound
`layer_outputs[layer+1].size()` equals the bias vector length by construction. -/
def layerPre (W : List (List ℝ)) (b : List ℝ) (x : List ℝ) : List ℝ :=
  (List.range b.length).map (neuronSum W b x)

/-- Layer loop of MLP::forward: the final transition always applies sigmoid
(the binary-classification output convention in the source), every earlier
transition applies the configured activation. -/
noncomputable def forwardLayers (a : ActivationType) :
    List (List (List ℝ) × List ℝ) → List ℝ → List ℝ
  | [], x => x
  | [Wb], x => (layerPre Wb.1 Wb.2 x).map sigmoid
  | Wb :: Wb2 :: rest, x =>
      forwardLayers a (Wb2 :: rest) ((layerPre Wb.1 Wb.2 x).map (activate a))

/-- MLP::forward: rejects an input whose length differs from the first layer
width, then runs the layer loop and returns the last activation vector. -/
noncomputable def forward (net : MLP ℝ) (input : List ℝ) : Except MLPError (List ℝ) :=
  if input.length = net.layer_sizes.headD 0 then
    .ok (forwardLayers net.act (net.weights.zip net.biases) input)
  else .error .inputSizeMismatch

theorem sigmoid_pos (x : ℝ) : 0 < sigmoid x := by
  have h := Real.exp_pos (-x)
  rw [sigmoid]
  positivity

theorem sigmoid_lt_one (x : ℝ) : sigmoid x < 1 := by
  have h := Real.exp_pos (-x)
  rw [sigmoid, div_lt_one (by linarith)]
  linarith

theorem length_layerPre (W : List (List ℝ)) (b : List ℝ) (x : List ℝ) :
    (layerPre W b x).length = b.length := by
  simp [layerPre]

theorem forwardLayers_spec :
    ∀ (Ws : List (List (List ℝ))) (sizes : List ℕ) (bs : List (List ℝ))
      (a : ActivationType) (x : List ℝ),
      wellShaped sizes Ws bs → 2 ≤ sizes.length →
      (forwardLayers a (Ws.zip bs) x).length = sizes.getLastD 0 ∧
      ∀ v ∈ forwardLayers a (Ws.zip bs) x, 0 < v ∧ v < 1 := by
  intro Ws
  induction Ws with
  | nil =>
    intro sizes bs a x h h2
    match sizes, bs with
    | [], bs => simp [wellShaped] at h
    | [n], [] => simp at h2
    | [n], b :: bs2 => simp [wellShaped] at h
    | n0 :: n1 :: rest, bs => simp [wellShaped] at h
  | cons W Ws2 ih =>
    intro sizes bs a x h h2
    match sizes, bs with
    | [], bs => simp [wellShaped] at h
    | [n], bs => simp [wellShaped] at h
    | n0 :: n1 :: rest, [] => simp [wellShaped] at h
    | n0 :: n1 :: rest, b :: bs2 =>
      rw [wellShaped] at h
      obtain ⟨hW, hb, hrest⟩ := h
      match Ws2, rest, bs2 with
      | [], [], [] =>
        rw [List.zip_cons_cons, List.zip_nil_left]
        constructor
        · rw [forwardLayers]
          simp [length_layerPre, hb, List.getLastD]
        · intro v hv
          rw [forwardLayers] at hv
          obtain ⟨u, -, rfl⟩ := List.mem_map.1 hv
          exact ⟨sigmoid_pos u, sigmoid_lt_one u⟩
      | [], [], b2 :: bs3 => simp [wellShaped] at hrest
      | [], n2 :: rest2, bs2 => simp [wellShaped] at hrest
      | W2 :: Ws3, [], bs2 => simp [wellShaped] at hrest
      | W2 :: Ws3, n2 :: rest2, [] => simp [wellShaped] at hrest
      | W2 :: Ws3, n2 :: rest2, b2 :: bs3 =>
        have step := ih (n1 :: n2 :: rest2) (b2 :: bs3) a
          ((layerPre W b x).map (activate a)) hrest (by simp)
        rw [List.zip_cons_cons, List.zip_cons_cons]
        rw [List.zip_cons_cons] at step
        rw [forwardLayers]
        refine ⟨?_, step.2⟩
        rw [step.1]
        simp [List.getLastD_cons]

/-- Output of the sole transition of a 2-layer network does not depend on the
configured activation: both reduce to the sigmoid branch. -/
theorem forwardLayers_single_act (a a2 : ActivationType)
    (Wb : List (List ℝ) × List ℝ) (x : List ℝ) :
    forwardLayers a [Wb] x = forwardLayers a2 [Wb] x := rfl

/-- Claim C6: on a well-formed network with at least two layers and a matching
input, forward succeeds; the output length equals the final layer width, every
output value lies strictly between 0 and 1 (sigmoid range), and for a network
with no hidden layers the output is independent of the configured activation
because the final transition always applies sigmoid. -/
theorem forward_final_sigmoid (net : MLP ℝ) (input : List ℝ) (a2 : ActivationType)
    (hwf : WellFormed net) (h2 : 2 ≤ net.layer_sizes.length)
    (hin : input.length = net.layer_sizes.headD 0) :
    ∃ o, forward net input = .ok o ∧
      o.length = net.layer_sizes.getLastD 0 ∧
      (∀ v ∈ o, 0 < v ∧ v < 1) ∧
      (net.layer_sizes.length = 2 → forward { net with act := a2 } input = .ok o) := by
  obtain ⟨hlen, hrange⟩ := forwardLayers_spec net.weights net.layer_sizes net.biases
    net.act input hwf h2
  refine ⟨forwardLayers net.act (net.weights.zip net.biases) input, ?_, hlen, hrange, ?_⟩
  · rw [forward, if_pos hin]
  · intro hl2
    have hpair : ∃ Wb, net.weights.zip net.biases = [Wb] := by
      rw [WellFormed] at hwf
      match h0 : net.layer_sizes, h1 : net.weights, h2 : net.biases with
      | [], _, _ => rw [h0] at hl2; simp at hl2
      | [n], _, _ => rw [h0] at hl2; simp at hl2
      | n0 :: n1 :: n2 :: rest, _, _ => rw [h0] at hl2; simp at hl2
      | [n0, n1], [], bs => rw [h0, h1] at hwf; simp [wellShaped] at hwf
      | [n0, n1], W :: Ws2, [] => rw [h0, h1, h2] at hwf; simp [wellShaped] at hwf
      | [n0, n1], W :: W2 :: Ws2, b :: bs2 =>
        rw [h0, h1, h2] at hwf
        rw [wellShaped] at hwf
        simp [wellShaped] at hwf
      | [n0, n1], [W], b :: b2 :: bs2 =>
        rw [h0, h1, h2] at hwf
        rw [wellShaped] at hwf
        simp [wellShaped] at hwf
      | [n0, n1], [W], [b] => exact ⟨(W, b), by simp [h1, h2]⟩
    obtain ⟨Wb, hWb⟩ := hpair
    rw [forward]
    simp only [MLP.mk.injEq]
    rw [if_pos hin, hWb, forwardLayers_single_act a2 net.act]

/-- Witness for C6 at a concrete 1-to-1 network with the RELU configuration. -/
theorem forward_final_sigmoid_witness :
    ∃ o, forward ⟨[1, 1], .RELU, [[[0]]], [[0]]⟩ [0] = .ok o ∧
      o.length = ([1, 1] : List ℕ).getLastD 0 ∧
      (∀ v ∈ o, 0 < v ∧ v < 1) ∧
      (([1, 1] : List ℕ).length = 2 →
        forward ⟨[1, 1], .TANH, [[[0]]], [[0]]⟩ [0] = .ok o) := by
  have h := forward_final_sigmoid ⟨[1, 1], .RELU, [[[0]]], [[0]]⟩ [0] .TANH
    (by simp [WellFormed, wellShaped, shapedMatrix]) (by simp) (by simp)
  exact h

/-- Scan loop of MLP::predict for several output units: walk the remaining
values with the running maximum and its index, replacing them only on a strict
increase, so the first occurrence of the maximum wins. -/
def scanMax {α : Type} [LinearOrder α] : List α → α → ℕ → ℕ → α × ℕ
  | [], cur, _, best => (cur, best)
  | v :: vs, cur, i, best =>
    if cur < v then scanMax vs v (i + 1) i else scanMax vs cur (i + 1) best

/-- Decision rule of MLP::predict on a forward output: a single unit is
thresholded at `half` (class 1 when the value is at least `half`), several
units yield the first-occurrence arg-max index, and the degenerate empty
output returns index 0 as the untouched loop variable would. -/
def classify {α : Type} [LinearOrder α] (half : α) : List α → ℕ
  | [] => 0
  | [v] => if half ≤ v then 1 else 0
  | v :: vs => (scanMax vs v 1 0).2

/-- MLP::predict: forward, then classify with threshold 0.5. -/
noncomputable def predict (net : MLP ℝ) (input : List ℝ) : Except MLPError ℕ :=
  (forward net input).map (classify (1 / 2 : ℝ))

theorem le_foldl_max {α : Type} [LinearOrder α] :
    ∀ (vs : List α) (cur : α), cur ≤ vs.foldl max cur ∧
      ∀ v ∈ vs, v ≤ vs.foldl max cur := by
  intro vs
  induction vs with
  | nil => simp
  | cons v vs2 ih =>
    intro cur
    obtain ⟨h1, h2⟩ := ih (max cur v)
    refine ⟨le_trans (le_max_left cur v) h1, ?_⟩
    intro u hu
    rcases List.mem_cons.1 hu with rfl | hu2
    · exact le_trans (le_max_right cur u) h1
    · exact h2 u hu2

theorem scanMax_spec {α : Type} [LinearOrder α] (d : α) :
    ∀ (vs : List α) (cur : α) (i best : ℕ),
      (scanMax vs cur i best).1 = vs.foldl max cur ∧
      (((scanMax vs cur i best).2 = best ∧ (scanMax vs cur i best).1 = cur) ∨
        ∃ j, j < vs.length ∧ (scanMax vs cur i best).2 = i + j ∧
          vs.getD j d = (scanMax vs cur i best).1 ∧
          cur < (scanMax vs cur i best).1 ∧
          ∀ l, l < j → vs.getD l d < (scanMax vs cur i best).1) := by
  intro vs
  induction vs with
  | nil => simp [scanMax]
  | cons v vs2 ih =>
    intro cur i best
    rw [scanMax]
    by_cases hc : cur < v
    · rw [if_pos hc]
      obtain ⟨h1, h2⟩ := ih v (i + 1) i
      have hmax : vs2.foldl max v = (v :: vs2).foldl max cur := by
        simp [List.foldl_cons, max_eq_right (le_of_lt hc)]
      refine ⟨by rw [h1, hmax], ?_⟩
      rcases h2 with ⟨hb, hv⟩ | ⟨j, hj, hb, hg, hlt, hall⟩
      · refine Or.inr ⟨0, by simp, by omega, ?_, ?_, by omega⟩
        · simp [hv]
        · rw [hv]; exact hc
      · refine Or.inr ⟨j + 1, by simpa using hj, by omega, ?_, ?_, ?_⟩
        · simpa using hg
        · exact lt_trans hc hlt
        · intro l hl
          cases l with
          | zero => simpa using hlt
          | succ l2 =>
            rw [List.getD_cons_succ]
            exact hall l2 (by omega)
    · rw [if_neg hc]
      obtain ⟨h1, h2⟩ := ih cur (i + 1) best
      have hmax : vs2.foldl max cur = (v :: vs2).foldl max cur := by
        simp [List.foldl_cons, max_eq_left (le_of_not_lt hc)]
      refine ⟨by rw [h1, hmax], ?_⟩
      rcases h2 with ⟨hb, hv⟩ | ⟨j, hj, hb, hg, hlt, hall⟩
      · exact Or.inl ⟨hb, hv⟩
      · refine Or.inr ⟨j + 1, by simpa using hj, by omega, ?_, ?_, ?_⟩
        · simpa using hg
        · exact hlt
        · intro l hl
          cases l with
          | zero =>
            rw [List.getD_cons_zero]
            exact lt_of_le_of_lt (le_of_not_lt hc) hlt
          | succ l2 =>
            rw [List.getD_cons_succ]
            exact hall l2 (by omega)

/-- Claim C8: a single-unit output is classified as 1 exactly when it is at
least the threshold (inclusive on the high side); an output with several units
is classified as the index of its first maximum: the chosen index is in range,
its value is greatest, and every earlier value is strictly smaller.  The last
conjunct records that predict is exactly forward followed by this rule at 1/2. -/
theorem predict_spec :
    (∀ (α : Type) (inst : LinearOrder α) (half v : α),
      classify half [v] = if half ≤ v then 1 else 0) ∧
    (∀ (α : Type) (inst : LinearOrder α) (half d : α) (out : List α),
      2 ≤ out.length →
      classify half out < out.length ∧
      (∀ j, j < out.length → out.getD j d ≤ out.getD (classify half out) d) ∧
      (∀ j, j < classify half out → out.getD j d < out.getD (classify half out) d)) ∧
    (∀ (net : MLP ℝ) (input : List ℝ),
      predict net input = (forward net input).map (classify (1 / 2 : ℝ))) := by
  refine ⟨fun α inst half v => rfl, ?_, fun net input => rfl⟩
  intro α inst half d out hlen
  match out with
  | v :: v2 :: vs =>
    have hcl : classify half (v :: v2 :: vs) = (scanMax (v2 :: vs) v 1 0).2 := rfl
    obtain ⟨h1, h2⟩ := scanMax_spec d (v2 :: vs) v 1 0
    have hmax := le_foldl_max (v2 :: vs) v
    rcases h2 with ⟨hb, hv⟩ | ⟨j, hj, hb, hg, hlt, hall⟩
    · rw [hcl, hb]
      refine ⟨by simp, ?_, by omega⟩
      intro j hj2
      cases j with
      | zero => simp
      | succ j2 =>
        rw [List.getD_cons_succ, List.getD_cons_zero]
        have hj3 : j2 < (v2 :: vs).length := by simpa using hj2
        have := hmax.2 ((v2 :: vs).getD j2 d)
          (by rw [List.getD_eq_getElem (v2 :: vs) d hj3]; exact List.getElem_mem hj3)
        rw [← h1, hv] at this
        exact this
    · rw [hcl, hb]
      have hget : (v :: v2 :: vs).getD (1 + j) d = (scanMax (v2 :: vs) v 1 0).1 := by
        rw [show 1 + j = j + 1 by omega, List.getD_cons_succ, hg]
      refine ⟨by simp only [List.length_cons] at hj ⊢; omega, ?_, ?_⟩
      · intro l hl
        rw [hget]
        cases l with
        | zero => rw [List.getD_cons_zero]; exact le_of_lt hlt
        | succ l2 =>
          rw [List.getD_cons_succ]
          have hl3 : l2 < (v2 :: vs).length := by simpa using hl
          have := hmax.2 ((v2 :: vs).getD l2 d)
            (by rw [List.getD_eq_getElem (v2 :: vs) d hl3]; exact List.getElem_mem hl3)
          rw [← h1] at this
          exact this
      · intro l hl
        rw [hget]
        cases l with
        | zero => rw [List.getD_cons_zero]; exact hlt
        | succ l2 =>
          rw [List.getD_cons_succ]
          exact hall l2 (by omega)

/-- Witness for C8: the spec scenario `[0.2, 0.9, 0.9]` classifies to index 1
(first occurrence of the maximum under the strict comparison), and a value
exactly at the threshold classifies to class 1. -/
theorem predict_spec_witness :
    classify (1 / 2 : ℚ) [(1 / 2 : ℚ)] = 1 ∧
    classify (1 / 2 : ℚ) [2 / 10, 9 / 10, 9 / 10] < 3 ∧
    classify (1 / 2 : ℚ) [2 / 10, 9 / 10, 9 / 10] = 1 := by
  have h1 := predict_spec.1 ℚ inferInstance (1 / 2) (1 / 2)
  have h2 := (predict_spec.2.1 ℚ inferInstance (1 / 2) 0
    [2 / 10, 9 / 10, 9 / 10] (by decide)).1
  exact ⟨by rw [h1]; norm_num, by simpa using h2, by norm_num [classify, scanMax]⟩

/-- Individual from ga.h: a chromosome plus a fitness; both constructors set
fitness to 0.0, not to a negative sentinel. -/
structure Individual where
  chromosome : List ℚ
  fitness : ℚ
deriving DecidableEq

/-- Default-constructed Individual(): empty chromosome, fitness 0. -/
def Individual.default0 : Individual := ⟨[], 0⟩

/-- Individual(int size): zero-filled chromosome of the given length, fitness 0. -/
def Individual.sized (n : ℕ) : Individual := ⟨List.replicate n 0, 0⟩

/-- GAConfig from ga.h.  The C++ int fields are embedded as ℕ (the claims under
verification assume nonnegative sizes), the double rates as ℚ. -/
structure GAConfig where
  population_size : ℕ
  max_generations : ℕ
  crossover_rate : ℚ
  mutation_rate : ℚ
  mutation_strength : ℚ
  elitism_rate : ℚ
  tournament_size : ℕ
  verbose : Bool
deriving DecidableEq

/-- Raw draw stream of the process-wide Utils::rng mt19937 plus its cursor.
The mersenne twister is a deterministic function of its seed, so re-seeding
identically reproduces the same raw stream; the embedding keeps the stream
abstract and threads the cursor through every draw in program order. -/
structure RState where
  stream : ℕ → ℚ
  idx : ℕ

/-- Consume one raw draw. -/
def nextRaw (r : RState) : ℚ × RState :=
  (r.stream r.idx, ⟨r.stream, r.idx + 1⟩)

/-- Fractional part, used to map a raw draw into a half-open interval. -/
def fract (q : ℚ) : ℚ := q - ⌊q⌋

/-- Utils::randomDouble: one draw mapped into [lo, hi), the support of
uniform_real_distribution(lo, hi). -/
def randomDouble (lo hi : ℚ) (r : RState) : ℚ × RState :=
  let s := nextRaw r
  (lo + (hi - lo) * fract s.1, s.2)

/-- Utils::randomInt on a ℕ range: one draw mapped into [lo, hi], the support
of uniform_int_distribution(lo, hi). -/
def randomNat (lo hi : ℕ) (r : RState) : ℕ × RState :=
  let s := nextRaw r
  (lo + (⌊s.1⌋.toNat % (hi + 1 - lo)), s.2)

/-- Utils::randomVector: a vector of n independent randomDouble draws. -/
def randomVector : ℕ → ℚ → ℚ → RState → List ℚ × RState
  | 0, _, _, r => ([], r)
  | n + 1, lo, hi, r =>
    let d := randomDouble lo hi r
    let rest := randomVector n lo hi d.2
    (d.1 :: rest.1, rest.2)

/-- Utils::clamp. -/
def clamp (v lo hi : ℚ) : ℚ := max lo (min hi v)

/-- GeneticAlgorithm::initializePopulation: every individual receives a fresh
random chromosome drawn from [lo, hi) and fitness 0.0 (evolve calls this with
the default bounds -1 and 1). -/
def initializePopulation : ℕ → ℕ → ℚ → ℚ → RState → List Individual × RState
  | 0, _, _, _, r => ([], r)
  | n + 1, len, lo, hi, r =>
    let c := randomVector len lo hi r
    let rest := initializePopulation n len lo hi c.2
    (⟨c.1, 0⟩ :: rest.1, rest.2)

/-- Fold of std::max_element under the fitness-< comparator: the first maximal
element is kept because the accumulator changes only on a strict increase. -/
def maxElement : List Individual → Individual → Individual
  | [], acc => acc
  | x :: xs, acc => maxElement xs (if acc.fitness < x.fitness then x else acc)

/-- GeneticAlgorithm::evaluateFitness: recompute every individual's fitness,
then replace the best-ever pair only when the population maximum strictly
exceeds the recorded best fitness. -/
def evaluateFitness (f : List ℚ → ℚ) (pop : List Individual) (bf : ℚ)
    (bi : Individual) : List Individual × ℚ × Individual :=
  let pop2 := pop.map fun ind => { ind with fitness := f ind.chromosome }
  match pop2 with
  | [] => (pop2, bf, bi)
  | h :: t =>
    let m := maxElement t h
    if bf < m.fitness then (pop2, m.fitness, m) else (pop2, bf, bi)

/-- Draw loop of GeneticAlgorithm::tournamentSelection: tournament_size uniform
index draws with replacement, keeping the strictly fittest candidate. -/
def tournamentLoop (pop : List Individual) : ℕ → Individual → RState →
    Individual × RState
  | 0, best, r => (best, r)
  | k + 1, best, r =>
    let d := randomNat 0 (pop.length - 1) r
    let cand := pop.getD d.1 Individual.default0
    tournamentLoop pop k (if best.fitness < cand.fitness then cand else best) d.2

/-- GeneticAlgorithm::tournamentSelection: the loop starts from a local
Individual with fitness forced to -1.0. -/
def tournamentSelection (cfg : GAConfig) (pop : List Individual) (r : RState) :
    Individual × RState :=
  tournamentLoop pop cfg.tournament_size ⟨[], -1⟩ r

/-- Per-gene inner loop of GeneticAlgorithm::crossover: one coin per index;
on success the two children's genes at that index are exchanged. -/
def uniformCross : List ℚ → List ℚ → RState → (List ℚ × List ℚ) × RState
  | x :: xs, y :: ys, r =>
    let d := randomDouble 0 1 r
    let rest := uniformCross xs ys d.2
    if d.1 < 1 / 2 then ((y :: rest.1.1, x :: rest.1.2), rest.2)
    else ((x :: rest.1.1, y :: rest.1.2), rest.2)
  | [], ys, r => (([], ys), r)
  | x :: xs, [], r => ((x :: xs, []), r)

/-- GeneticAlgorithm::crossover: the children start as copies of the parents
(fitness fields included); with probability crossover_rate the uniform per-gene
exchange runs once for the pair, otherwise the copies pass through. -/
def crossover (cfg : GAConfig) (p1 p2 : Individual) (r : RState) :
    (Individual × Individual) × RState :=
  let d := randomDouble 0 1 r
  if d.1 < cfg.crossover_rate then
    let c := uniformCross p1.chromosome p2.chromosome d.2
    (({ p1 with chromosome := c.1.1 }, { p2 with chromosome := c.1.2 }), c.2)
  else ((p1, p2), d.2)

/-- Per-gene loop of GeneticAlgorithm::mutate: with probability mutation_rate
add uniform noise from [-mutation_strength, mutation_strength) and clamp the
perturbed gene into [-5, 5]; untouched genes keep their value. -/
def mutateGenes (cfg : GAConfig) : List ℚ → RState → List ℚ × RState
  | [], r => ([], r)
  | x :: xs, r =>
    let d := randomDouble 0 1 r
    if d.1 < cfg.mutation_rate then
      let n := randomDouble (-cfg.mutation_strength) cfg.mutation_strength d.2
      let rest := mutateGenes cfg xs n.2
      (clamp (x + n.1) (-5) 5 :: rest.1, rest.2)
    else
      let rest := mutateGenes cfg xs d.2
      (x :: rest.1, rest.2)

/-- GeneticAlgorithm::mutate on one individual. -/
def mutate (cfg : GAConfig) (ind : Individual) (r : RState) :
    Individual × RState :=
  let g := mutateGenes cfg ind.chromosome r
  ({ ind with chromosome := g.1 }, g.2)

/-- Offspring loop of GeneticAlgorithm::evolve: while the buffer is short of
population_size, select two parents, cross, mutate both children, append the
first, and append the second only if the buffer is still short (the overshoot
child of the final pair is dropped).  The fuel bounds the iteration count;
population_size iterations always suffice because every pass appends at least
one child. -/
def makeOffspring (cfg : GAConfig) (pop : List Individual) :
    ℕ → List Individual → RState → List Individual × RState
  | 0, acc, r => (acc, r)
  | fuel + 1, acc, r =>
    if acc.length < cfg.population_size then
      let s1 := tournamentSelection cfg pop r
      let s2 := tournamentSelection cfg pop s1.2
      let c := crossover cfg s1.1 s2.1 s2.2
      let m1 := mutate cfg c.1.1 c.2
      let m2 := mutate cfg c.1.2 m1.2
      let acc1 := acc ++ [m1.1]
      let acc2 := if acc1.length < cfg.population_size then acc1 ++ [m2.1] else acc1
      makeOffspring cfg pop fuel acc2 m2.2
    else (acc, r)

/-- Insertion step of a descending-by-fitness sort. -/
def insertDesc (x : Individual) : List Individual → List Individual
  | [] => [x]
  | y :: ys => if y.fitness < x.fitness then x :: y :: ys else y :: insertDesc x ys

/-- Descending-by-fitness sort, embedding std::sort with the comparator
`a.fitness > b.fitness`; the C++ order among equal fitnesses is unspecified
and no verified claim depends on it. -/
def sortDesc : List Individual → List Individual
  | [] => []
  | x :: xs => insertDesc x (sortDesc xs)

/-- Elite count static_cast<int>(population_size * elitism_rate): truncation
toward zero, which is the floor for a nonnegative product, and zero loop
iterations when the product is negative — exactly Int.toNat of the floor. -/
def eliteCount (cfg : GAConfig) : ℕ :=
  (⌊(cfg.population_size : ℚ) * cfg.elitism_rate⌋).toNat

/-- GeneticAlgorithm::replacePopulation: sort both pools descending, keep the
top eliteCount of the current population, then append best offspring until the
new population reaches population_size. -/
def replacePopulation (cfg : GAConfig) (pop offspring : List Individual) :
    List Individual :=
  let el := (sortDesc pop).take (eliteCount cfg)
  el ++ (sortDesc offspring).take (cfg.population_size - el.length)

/-- Run state of one GeneticAlgorithm object during evolve. -/
structure GAState where
  population : List Individual
  best_fitness : ℚ
  best_individual : Individual
  best_fitness_history : List ℚ
  avg_fitness_history : List ℚ
  rng : RState

/-- One generation of the loop in GeneticAlgorithm::evolve: build offspring,
evaluate each offspring's fitness inline — the source performs no best-ever
update here — replace the population, then append the per-generation
statistics (the recorded best fitness and the new population mean). -/
def generationStep (cfg : GAConfig) (f : List ℚ → ℚ) (st : GAState) : GAState :=
  let off := makeOffspring cfg st.population cfg.population_size [] st.rng
  let off2 := off.1.map fun ind => { ind with fitness := f ind.chromosome }
  let pop2 := replacePopulation cfg st.population off2
  { population := pop2
    best_fitness := st.best_fitness
    best_individual := st.best_individual
    best_fitness_history := st.best_fitness_history ++ [st.best_fitness]
    avg_fitness_history :=
      st.avg_fitness_history ++ [(pop2.map Individual.fitness).sum / (pop2.length : ℚ)]
    rng := off.2 }

/-- State after the initialization phase of evolve: random population drawn
from the default bounds [-1, 1), one full fitness evaluation with best-ever
update; the constructor started best_fitness at 0.0 and best_individual
default-constructed, and both histories empty. -/
def initState (cfg : GAConfig) (len : ℕ) (f : List ℚ → ℚ) (r : RState) : GAState :=
  let p := initializePopulation cfg.population_size len (-1) 1 r
  let e := evaluateFitness f p.1 0 Individual.default0
  { population := e.1
    best_fitness := e.2.1
    best_individual := e.2.2
    best_fitness_history := []
    avg_fitness_history := []
    rng := p.2 }

/-- GeneticAlgorithm::evolve with the fitness function bound: initialization
followed by exactly max_generations generation steps — the loop has no early
exit. -/
def evolve (cfg : GAConfig) (len : ℕ) (f : List ℚ → ℚ) (r : RState) : GAState :=
  (generationStep cfg f)^[cfg.max_generations] (initState cfg len f r)

theorem length_initializePopulation (n len : ℕ) (lo hi : ℚ) (r : RState) :
    (initializePopulation n len lo hi r).1.length = n := by
  induction n generalizing r with
  | zero => rfl
  | succ n ih => simp [initializePopulation, ih]

theorem evaluateFitness_fst (f : List ℚ → ℚ) (pop : List Individual) (bf : ℚ)
    (bi : Individual) :
    (evaluateFitness f pop bf bi).1
      = pop.map fun ind => { ind with fitness := f ind.chromosome } := by
  rw [evaluateFitness]
  split
  · rfl
  · dsimp only
    split <;> rfl

theorem length_insertDesc (x : Individual) (l : List Individual) :
    (insertDesc x l).length = l.length + 1 := by
  induction l with
  | nil => rfl
  | cons y ys ih =>
    rw [insertDesc]
    split
    · simp
    · simp [ih]

theorem length_sortDesc (l : List Individual) : (sortDesc l).length = l.length := by
  induction l with
  | nil => rfl
  | cons x xs ih => rw [sortDesc, length_insertDesc, ih, List.length_cons]

theorem length_makeOffspring (cfg : GAConfig) (pop : List Individual) :
    ∀ (fuel : ℕ) (acc : List Individual) (r : RState),
      acc.length ≤ cfg.population_size →
      cfg.population_size ≤ acc.length + fuel →
      (makeOffspring cfg pop fuel acc r).1.length = cfg.population_size := by
  intro fuel
  induction fuel with
  | zero =>
    intro acc r h1 h2
    rw [makeOffspring]
    dsimp only
    omega
  | succ fuel ih =>
    intro acc r h1 h2
    rw [makeOffspring]
    split
    · dsimp only
      split
      · apply ih
        · simp only [List.length_append, List.length_cons, List.length_nil] at *
          omega
        · simp only [List.length_append, List.length_cons, List.length_nil] at *
          omega
      · apply ih
        · simp only [List.length_append, List.length_cons, List.length_nil] at *
          omega
        · simp only [List.length_append, List.length_cons, List.length_nil] at *
          omega
    · dsimp only
      omega

theorem eliteCount_le (cfg : GAConfig) (h0 : 0 ≤ cfg.elitism_rate)
    (h1 : cfg.elitism_rate ≤ 1) : eliteCount cfg ≤ cfg.population_size := by
  rw [eliteCount]
  have h2 : ⌊(cfg.population_size : ℚ) * cfg.elitism_rate⌋ ≤ (cfg.population_size : ℤ) := by
    have hle : (cfg.population_size : ℚ) * cfg.elitism_rate ≤ (cfg.population_size : ℚ) :=
      mul_le_of_le_one_right (by positivity) h1
    calc ⌊(cfg.population_size : ℚ) * cfg.elitism_rate⌋
        ≤ ⌊((cfg.population_size : ℕ) : ℚ)⌋ := Int.floor_le_floor hle
      _ = (cfg.population_size : ℤ) := Int.floor_natCast cfg.population_size
  omega

theorem length_replacePopulation (cfg : GAConfig) (pop off : List Individual)
    (hoff : cfg.population_size ≤ off.length)
    (hel : eliteCount cfg ≤ cfg.population_size)
    (hpop : eliteCount cfg ≤ pop.length) :
    (replacePopulation cfg pop off).length = cfg.population_size := by
  rw [replacePopulation]
  simp only [List.length_append, List.length_take, length_sortDesc]
  omega

theorem length_generationStep (cfg : GAConfig) (f : List ℚ → ℚ) (st : GAState)
    (h0 : 0 ≤ cfg.elitism_rate) (h1 : cfg.elitism_rate ≤ 1)
    (hp : st.population.length = cfg.population_size) :
    (generationStep cfg f st).population.length = cfg.population_size := by
  have hoff := length_makeOffspring cfg st.population cfg.population_size [] st.rng
    (by simp) (by simp)
  rw [generationStep]
  apply length_replacePopulation
  · simp [hoff]
  · exact eliteCount_le cfg h0 h1
  · rw [hp]
    exact eliteCount_le cfg h0 h1

theorem length_initState (cfg : GAConfig) (len : ℕ) (f : List ℚ → ℚ) (r : RState) :
    (initState cfg len f r).population.length = cfg.population_size := by
  rw [initState]
  dsimp only
  rw [evaluateFitness_fst, List.length_map, length_initializePopulation]

/-- Claim C5: with population_size at least 1, elitism_rate in [0, 1] and
tournament_size at least 1, the population holds exactly population_size
individuals after initialization and after every generation's replacement, and
the offspring buffer is always filled to exactly population_size. -/
theorem population_size_invariant (cfg : GAConfig) (len : ℕ) (f : List ℚ → ℚ)
    (r : RState) (hN : 1 ≤ cfg.population_size) (h0 : 0 ≤ cfg.elitism_rate)
    (h1 : cfg.elitism_rate ≤ 1) (ht : 1 ≤ cfg.tournament_size) :
    (∀ k, ((generationStep cfg f)^[k] (initState cfg len f r)).population.length
        = cfg.population_size) ∧
    ∀ (pop : List Individual) (r2 : RState),
      (makeOffspring cfg pop cfg.population_size [] r2).1.length
        = cfg.population_size := by
  constructor
  · intro k
    induction k with
    | zero => exact length_initState cfg len f r
    | succ k ih =>
      rw [Function.iterate_succ_apply']
      exact length_generationStep cfg f _ h0 h1 ih
  · intro pop r2
    exact length_makeOffspring cfg pop cfg.population_size [] r2 (by simp) (by simp)

/-- Witness for C5 at a concrete configuration with an odd population size. -/
theorem population_size_invariant_witness :
    ((generationStep ⟨3, 1, 0, 0, 1, 1 / 2, 1, false⟩ (fun _ => 0))^[1]
      (initState ⟨3, 1, 0, 0, 1, 1 / 2, 1, false⟩ 1 (fun _ => 0)
        ⟨fun _ => 0, 0⟩)).population.length = 3 :=
  (population_size_invariant ⟨3, 1, 0, 0, 1, 1 / 2, 1, false⟩ 1 (fun _ => 0)
    ⟨fun _ => 0, 0⟩ (by norm_num) (by norm_num) (by norm_num) (by norm_num)).1 1

theorem evolve_best_constant (cfg : GAConfig) (f : List ℚ → ℚ) (st : GAState) :
    ∀ k, ((generationStep cfg f)^[k] st).best_fitness = st.best_fitness ∧
      ((generationStep cfg f)^[k] st).best_fitness_history
        = st.best_fitness_history ++ List.replicate k st.best_fitness ∧
      ((generationStep cfg f)^[k] st).avg_fitness_history.length
        = st.avg_fitness_history.length + k := by
  intro k
  induction k with
  | zero => simp
  | succ k ih =>
    obtain ⟨h1, h2, h3⟩ := ih
    rw [Function.iterate_succ_apply']
    refine ⟨?_, ?_, ?_⟩
    · rw [generationStep]
      exact h1
    · rw [generationStep]
      dsimp only
      rw [h2, h1, List.replicate_succ', List.append_assoc]
    · rw [generationStep]
      dsimp only
      rw [List.length_append, h3, List.length_cons, List.length_nil]
      omega

/-- Claim C7: after evolve completes, both history vectors have length exactly
max_generations and the best-fitness history is non-decreasing. -/
theorem histories_spec (cfg : GAConfig) (len : ℕ) (f : List ℚ → ℚ) (r : RState) :
    (evolve cfg len f r).best_fitness_history.length = cfg.max_generations ∧
    (evolve cfg len f r).avg_fitness_history.length = cfg.max_generations ∧
    (evolve cfg len f r).best_fitness_history.Sorted (· ≤ ·) := by
  obtain ⟨h1, h2, h3⟩ :=
    evolve_best_constant cfg f (initState cfg len f r) cfg.max_generations
  have hb : (initState cfg len f r).best_fitness_history = [] := rfl
  have ha : (initState cfg len f r).avg_fitness_history = [] := rfl
  rw [evolve]
  refine ⟨?_, ?_, ?_⟩
  · rw [h2, hb, List.nil_append, List.length_replicate]
  · rw [h3, ha, List.length_nil, Nat.zero_add]
  · rw [h2, hb, List.nil_append]
    exact List.pairwise_replicate.2 (Or.inr le_rfl)

/-- Claim C9: evolve is a pure function of the configuration, the fitness
function and the raw random stream; re-seeding the shared mt19937 identically
reproduces the same raw stream, hence the same best-ever fitness. -/
theorem evolve_deterministic (cfg : GAConfig) (len : ℕ) (f : List ℚ → ℚ)
    (s1 s2 : RState) (h : s1 = s2) :
    (evolve cfg len f s1).best_fitness = (evolve cfg len f s2).best_fitness := by
  rw [h]

/-- Witness for C9 at a concrete configuration and stream. -/
theorem evolve_deterministic_witness :
    (evolve ⟨1, 1, 0, 0, 0, 0, 1, false⟩ 1 (fun _ => 0) ⟨fun _ => 0, 0⟩).best_fitness
      = (evolve ⟨1, 1, 0, 0, 0, 0, 1, false⟩ 1 (fun _ => 0) ⟨fun _ => 0, 0⟩).best_fitness :=
  evolve_deterministic ⟨1, 1, 0, 0, 0, 0, 1, false⟩ 1 (fun _ => 0)
    ⟨fun _ => 0, 0⟩ ⟨fun _ => 0, 0⟩ rfl

theorem fract_nonneg (q : ℚ) : 0 ≤ fract q := by
  rw [fract]
  have := Int.floor_le q
  linarith

theorem fract_lt_one (q : ℚ) : fract q < 1 := by
  rw [fract]
  have := Int.lt_floor_add_one q
  linarith

theorem randomDouble_mem (lo hi : ℚ) (r : RState) (h : lo ≤ hi) :
    lo ≤ (randomDouble lo hi r).1 ∧ (randomDouble lo hi r).1 ≤ hi := by
  rw [randomDouble]
  dsimp only
  constructor
  · nlinarith [fract_nonneg (nextRaw r).1, fract_lt_one (nextRaw r).1]
  · nlinarith [fract_nonneg (nextRaw r).1, fract_lt_one (nextRaw r).1]

theorem randomVector_mem (n : ℕ) (lo hi : ℚ) (h : lo ≤ hi) :
    ∀ (r : RState), ∀ g ∈ (randomVector n lo hi r).1, lo ≤ g ∧ g ≤ hi := by
  induction n with
  | zero =>
    intro r g hg
    simp [randomVector] at hg
  | succ n ih =>
    intro r g hg
    rw [randomVector] at hg
    dsimp only at hg
    rcases List.mem_cons.1 hg with rfl | hg2
    · exact randomDouble_mem lo hi r h
    · exact ih _ g hg2

theorem clamp_mem (v lo hi : ℚ) (h : lo ≤ hi) :
    lo ≤ clamp v lo hi ∧ clamp v lo hi ≤ hi :=
  ⟨le_max_left lo _, max_le h (min_le_left hi v)⟩

/-- All genes of an individual lie in [-5, 5]. -/
def boundedInd (ind : Individual) : Prop :=
  ∀ g ∈ ind.chromosome, -5 ≤ g ∧ g ≤ 5

theorem mutateGenes_bounded (cfg : GAConfig) :
    ∀ (xs : List ℚ) (r : RState), (∀ g ∈ xs, -5 ≤ g ∧ g ≤ 5) →
      ∀ g ∈ (mutateGenes cfg xs r).1, -5 ≤ g ∧ g ≤ 5 := by
  intro xs
  induction xs with
  | nil =>
    intro r h g hg
    simp [mutateGenes] at hg
  | cons x xs2 ih =>
    intro r h g hg
    rw [mutateGenes] at hg
    dsimp only at hg
    split at hg
    · rcases List.mem_cons.1 hg with rfl | hg2
      · exact clamp_mem _ _ _ (by norm_num)
      · exact ih _ (fun u hu => h u (List.mem_cons_of_mem x hu)) g hg2
    · rcases List.mem_cons.1 hg with rfl | hg2
      · exact h _ (List.mem_cons_self _ _)
      · exact ih _ (fun u hu => h u (List.mem_cons_of_mem x hu)) g hg2

theorem mutate_bounded (cfg : GAConfig) (ind : Individual) (r : RState)
    (h : boundedInd ind) : boundedInd (mutate cfg ind r).1 := by
  intro g hg
  rw [mutate] at hg
  dsimp only at hg
  exact mutateGenes_bounded cfg ind.chromosome r h g hg

theorem uniformCross_mem :
    ∀ (xs ys : List ℚ) (r : RState),
      (∀ g ∈ (uniformCross xs ys r).1.1, g ∈ xs ∨ g ∈ ys) ∧
      (∀ g ∈ (uniformCross xs ys r).1.2, g ∈ xs ∨ g ∈ ys) := by
  intro xs
  induction xs with
  | nil =>
    intro ys r
    constructor <;> intro g hg <;> rw [uniformCross] at hg
    · cases hg
    · exact Or.inr hg
  | cons x xs2 ih =>
    intro ys r
    cases ys with
    | nil =>
      constructor <;> intro g hg <;> rw [uniformCross] at hg
      · exact Or.inl hg
      · cases hg
    | cons y ys2 =>
      obtain ⟨ih1, ih2⟩ := ih ys2 ((randomDouble 0 1 r).2)
      constructor
      · intro g hg
        rw [uniformCross] at hg
        split at hg
        · rcases List.mem_cons.1 hg with rfl | hg2
          · exact Or.inr (List.mem_cons_self _ _)
          · rcases ih1 g hg2 with h2 | h2
            · exact Or.inl (List.mem_cons_of_mem x h2)
            · exact Or.inr (List.mem_cons_of_mem y h2)
        · rcases List.mem_cons.1 hg with rfl | hg2
          · exact Or.inl (List.mem_cons_self _ _)
          · rcases ih1 g hg2 with h2 | h2
            · exact Or.inl (List.mem_cons_of_mem x h2)
            · exact Or.inr (List.mem_cons_of_mem y h2)
      · intro g hg
        rw [uniformCross] at hg
        split at hg
        · rcases List.mem_cons.1 hg with rfl | hg2
          · exact Or.inl (List.mem_cons_self _ _)
          · rcases ih2 g hg2 with h2 | h2
            · exact Or.inl (List.mem_cons_of_mem x h2)
            · exact Or.inr (List.mem_cons_of_mem y h2)
        · rcases List.mem_cons.1 hg with rfl | hg2
          · exact Or.inr (List.mem_cons_self _ _)
          · rcases ih2 g hg2 with h2 | h2
            · exact Or.inl (List.mem_cons_of_mem x h2)
            · exact Or.inr (List.mem_cons_of_mem y h2)

theorem crossover_bounded (cfg : GAConfig) (p1 p2 : Individual) (r : RState)
    (h1 : boundedInd p1) (h2 : boundedInd p2) :
    boundedInd (crossover cfg p1 p2 r).1.1 ∧ boundedInd (crossover cfg p1 p2 r).1.2 := by
  rw [crossover]
  dsimp only
  split
  · obtain ⟨hm1, hm2⟩ :=
      uniformCross_mem p1.chromosome p2.chromosome ((randomDouble 0 1 r).2)
    constructor <;> intro g hg
    · rcases hm1 g hg with h3 | h3
      · exact h1 g h3
      · exact h2 g h3
    · rcases hm2 g hg with h3 | h3
      · exact h1 g h3
      · exact h2 g h3
  · exact ⟨h1, h2⟩

theorem getD_mem_or (l : List Individual) (i : ℕ) (d : Individual) :
    l.getD i d ∈ l ∨ l.getD i d = d := by
  by_cases h : i < l.length
  · left
    rw [List.getD_eq_getElem l d h]
    exact List.getElem_mem h
  · right
    exact List.getD_eq_default l d (le_of_not_lt h)

theorem tournamentLoop_cases (pop : List Individual) :
    ∀ (k : ℕ) (best : Individual) (r : RState),
      (tournamentLoop pop k best r).1 ∈ pop ∨ (tournamentLoop pop k best r).1 = best ∨
        (tournamentLoop pop k best r).1 = Individual.default0 := by
  intro k
  induction k with
  | zero =>
    intro best r
    right; left; rfl
  | succ k ih =>
    intro best r
    rw [tournamentLoop]
    rcases ih (if best.fitness <
        (pop.getD (randomNat 0 (pop.length - 1) r).1 Individual.default0).fitness
      then pop.getD (randomNat 0 (pop.length - 1) r).1 Individual.default0
      else best) ((randomNat 0 (pop.length - 1) r).2) with h | h | h
    · exact Or.inl h
    · rw [h]
      split
      · rcases getD_mem_or pop (randomNat 0 (pop.length - 1) r).1 Individual.default0
          with h2 | h2
        · exact Or.inl h2
        · exact Or.inr (Or.inr h2)
      · exact Or.inr (Or.inl rfl)
    · exact Or.inr (Or.inr h)

theorem tournamentSelection_bounded (cfg : GAConfig) (pop : List Individual)
    (r : RState) (hpop : ∀ ind ∈ pop, boundedInd ind) :
    boundedInd (tournamentSelection cfg pop r).1 := by
  rcases tournamentLoop_cases pop cfg.tournament_size ⟨[], -1⟩ r with h | h | h
  · exact hpop _ h
  · rw [tournamentSelection, h]
    intro g hg
    cases hg
  · rw [tournamentSelection, h]
    intro g hg
    cases hg

theorem mem_insertDesc (x y : Individual) (l : List Individual) :
    y ∈ insertDesc x l → y = x ∨ y ∈ l := by
  induction l with
  | nil =>
    intro h
    rw [insertDesc] at h
    rcases List.mem_cons.1 h with rfl | h2
    · exact Or.inl rfl
    · cases h2
  | cons z zs ih =>
    intro h
    rw [insertDesc] at h
    split at h
    · rcases List.mem_cons.1 h with rfl | h2
      · exact Or.inl rfl
      · exact Or.inr h2
    · rcases List.mem_cons.1 h with rfl | h2
      · exact Or.inr (List.mem_cons_self _ _)
      · rcases ih h2 with h3 | h3
        · exact Or.inl h3
        · exact Or.inr (List.mem_cons_of_mem z h3)

theorem mem_sortDesc (x : Individual) (l : List Individual) :
    x ∈ sortDesc l → x ∈ l := by
  induction l with
  | nil => intro h; cases h
  | cons z zs ih =>
    intro h
    rw [sortDesc] at h
    rcases mem_insertDesc z x (sortDesc zs) h with h2 | h2
    · rw [h2]; exact List.mem_cons_self _ _
    · exact List.mem_cons_of_mem z (ih h2)

theorem mem_replacePopulation (cfg : GAConfig) (pop off : List Individual)
    (x : Individual) :
    x ∈ replacePopulation cfg pop off → x ∈ pop ∨ x ∈ off := by
  rw [replacePopulation]
  intro h
  rcases List.mem_append.1 h with h2 | h2
  · exact Or.inl (mem_sortDesc x pop (List.take_subset _ _ h2))
  · exact Or.inr (mem_sortDesc x off (List.take_subset _ _ h2))

theorem makeOffspring_bounded (cfg : GAConfig) (pop : List Individual)
    (hpop : ∀ ind ∈ pop, boundedInd ind) :
    ∀ (fuel : ℕ) (acc : List Individual) (r : RState),
      (∀ ind ∈ acc, boundedInd ind) →
      ∀ ind ∈ (makeOffspring cfg pop fuel acc r).1, boundedInd ind := by
  intro fuel
  induction fuel with
  | zero =>
    intro acc r hacc ind hind
    rw [makeOffspring] at hind
    exact hacc ind hind
  | succ fuel ih =>
    intro acc r hacc ind hind
    rw [makeOffspring] at hind
    split at hind
    · dsimp only at hind
      set s1 := tournamentSelection cfg pop r with hs1
      set s2 := tournamentSelection cfg pop s1.2 with hs2
      set c := crossover cfg s1.1 s2.1 s2.2 with hc
      set m1 := mutate cfg c.1.1 c.2 with hm1d
      set m2 := mutate cfg c.1.2 m1.2 with hm2d
      have ht1 : boundedInd s1.1 := by
        rw [hs1]
        exact tournamentSelection_bounded cfg pop r hpop
      have ht2 : boundedInd s2.1 := by
        rw [hs2]
        exact tournamentSelection_bounded cfg pop s1.2 hpop
      have hcb : boundedInd c.1.1 ∧ boundedInd c.1.2 := by
        rw [hc]
        exact crossover_bounded cfg s1.1 s2.1 s2.2 ht1 ht2
      have hb1 : boundedInd m1.1 := by
        rw [hm1d]
        exact mutate_bounded cfg c.1.1 c.2 hcb.1
      have hb2 : boundedInd m2.1 := by
        rw [hm2d]
        exact mutate_bounded cfg c.1.2 m1.2 hcb.2
      refine ih _ _ ?_ ind hind
      intro ind2 hind2
      split at hind2 <;>
        simp only [List.mem_append, List.mem_singleton] at hind2
      · rcases hind2 with (h3 | h3) | h3
        · exact hacc ind2 h3
        · rw [h3]; exact hb1
        · rw [h3]; exact hb2
      · rcases hind2 with h3 | h3
        · exact hacc ind2 h3
        · rw [h3]; exact hb1
    · exact hacc ind hind

theorem evaluateFitness_bounded (f : List ℚ → ℚ) (pop : List Individual)
    (bf : ℚ) (bi : Individual) (h : ∀ ind ∈ pop, boundedInd ind) :
    ∀ ind ∈ (evaluateFitness f pop bf bi).1, boundedInd ind := by
  intro ind hind
  rw [evaluateFitness_fst] at hind
  obtain ⟨ind0, hmem, rfl⟩ := List.mem_map.1 hind
  intro g hg
  exact h ind0 hmem g hg

theorem initializePopulation_bounded (n len : ℕ) :
    ∀ (r : RState), ∀ ind ∈ (initializePopulation n len (-1) 1 r).1,
      boundedInd ind := by
  induction n with
  | zero =>
    intro r ind h
    simp [initializePopulation] at h
  | succ n ih =>
    intro r ind h
    rw [initializePopulation] at h
    dsimp only at h
    rcases List.mem_cons.1 h with rfl | h2
    · intro g hg
      have hb := randomVector_mem len (-1) 1 (by norm_num) r g hg
      constructor <;> linarith [hb.1, hb.2]
    · exact ih _ ind h2

theorem initState_bounded (cfg : GAConfig) (len : ℕ) (f : List ℚ → ℚ)
    (r : RState) : ∀ ind ∈ (initState cfg len f r).population, boundedInd ind := by
  intro ind hind
  rw [initState] at hind
  dsimp only at hind
  exact evaluateFitness_bounded f _ 0 Individual.default0
    (initializePopulation_bounded cfg.population_size len r) ind hind

theorem generationStep_bounded (cfg : GAConfig) (f : List ℚ → ℚ) (st : GAState)
    (h : ∀ ind ∈ st.population, boundedInd ind) :
    ∀ ind ∈ (generationStep cfg f st).population, boundedInd ind := by
  intro ind hind
  rw [generationStep] at hind
  dsimp only at hind
  rcases mem_replacePopulation cfg _ _ ind hind with h2 | h2
  · exact h ind h2
  · obtain ⟨ind0, hmem, rfl⟩ := List.mem_map.1 h2
    intro g hg
    exact makeOffspring_bounded cfg st.population h cfg.population_size [] st.rng
      (by intro x hx; cases hx) ind0 hmem g hg

/-- Claim C10: at every point of a run — after initialization and after each
generation — every gene of every individual in the population lies in [-5, 5]:
initial genes are drawn from [-1, 1), crossover only exchanges existing genes,
and every mutated gene is clamped into [-5, 5]. -/
theorem genes_bounded (cfg : GAConfig) (len : ℕ) (f : List ℚ → ℚ) (r : RState)
    (k : ℕ) :
    ∀ ind ∈ ((generationStep cfg f)^[k] (initState cfg len f r)).population,
      ∀ g ∈ ind.chromosome, -5 ≤ g ∧ g ≤ 5 := by
  induction k with
  | zero =>
    intro ind h
    exact initState_bounded cfg len f r ind h
  | succ k ih =>
    intro ind h
    rw [Function.iterate_succ_apply'] at h
    exact generationStep_bounded cfg f _ ih ind h

/-- Witness for C10 at the freshly initialized population of a concrete run. -/
theorem genes_bounded_witness :
    ((⟨[-1], 0⟩ : Individual) ∈
      ((generationStep ⟨1, 1, 0, 0, 1, 0, 1, false⟩ (fun _ => 0))^[0]
        (initState ⟨1, 1, 0, 0, 1, 0, 1, false⟩ 1 (fun _ => 0)
          ⟨fun _ => 0, 0⟩)).population) ∧
    (-5 ≤ (-1 : ℚ) ∧ (-1 : ℚ) ≤ 5) := by
  have hmem : (⟨[-1], 0⟩ : Individual) ∈
      ((generationStep ⟨1, 1, 0, 0, 1, 0, 1, false⟩ (fun _ => 0))^[0]
        (initState ⟨1, 1, 0, 0, 1, 0, 1, false⟩ 1 (fun _ => 0)
          ⟨fun _ => 0, 0⟩)).population := by
    norm_num [initState, initializePopulation, randomVector, randomDouble, nextRaw,
      fract, evaluateFitness, maxElement, Individual.default0]
  exact ⟨hmem, genes_bounded ⟨1, 1, 0, 0, 1, 0, 1, false⟩ 1 (fun _ => 0)
    ⟨fun _ => 0, 0⟩ 0 ⟨[-1], 0⟩ hmem (-1) (List.mem_singleton.2 rfl)⟩

/-- Counterexample for C2 as stated: a freshly initialized individual carries
fitness 0.0, and 0 is itself a valid accuracy score inside [0, 1], so the
pre-evaluation marker is not distinguishable from every valid score. -/
theorem fitness_sentinel_counterexample :
    ((initializePopulation 1 1 (-1) 1 ⟨fun _ => 0, 0⟩).1.map Individual.fitness
      = [0]) ∧
    Individual.default0.fitness = 0 ∧ (Individual.sized 3).fitness = 0 ∧
    (0 ≤ (0 : ℚ) ∧ (0 : ℚ) ≤ 1) := by
  refine ⟨?_, rfl, rfl, by norm_num⟩
  norm_num [initializePopulation, randomVector, randomDouble, nextRaw, fract]

/-- Claim C2 amended: every freshly constructed or freshly initialized
individual carries fitness exactly 0.0 — the minimum valid accuracy, not a
sentinel outside [0, 1].  (Only tournamentSelection's local accumulator uses a
negative starting fitness.) -/
theorem fitness_init_zero (n len : ℕ) (lo hi : ℚ) (r : RState) :
    (∀ ind ∈ (initializePopulation n len lo hi r).1, ind.fitness = 0) ∧
    Individual.default0.fitness = 0 ∧ ∀ m : ℕ, (Individual.sized m).fitness = 0 := by
  refine ⟨?_, rfl, fun m => rfl⟩
  induction n generalizing r with
  | zero =>
    intro ind h
    simp [initializePopulation] at h
  | succ n ih =>
    intro ind h
    rw [initializePopulation] at h
    dsimp only at h
    rcases List.mem_cons.1 h with rfl | h2
    · rfl
    · exact ih _ ind h2

/-- Witness for the amended C2 at a concrete one-individual initialization. -/
theorem fitness_init_zero_witness :
    ((⟨[-1], 0⟩ : Individual) ∈
      (initializePopulation 1 1 (-1) 1 ⟨fun _ => 0, 0⟩).1) ∧
    (⟨[-1], 0⟩ : Individual).fitness = 0 := by
  have hmem : (⟨[-1], 0⟩ : Individual) ∈
      (initializePopulation 1 1 (-1) 1 ⟨fun _ => 0, 0⟩).1 := by
    norm_num [initializePopulation, randomVector, randomDouble, nextRaw, fract]
  exact ⟨hmem, (fitness_init_zero 1 1 (-1) 1 ⟨fun _ => 0, 0⟩).1 ⟨[-1], 0⟩ hmem⟩

/-- Concrete run refuting C1 on the code: population 1, one generation,
crossover off, mutation certain.  The lone initial individual has fitness 2/5;
its mutated offspring is evaluated at fitness 9/20 and becomes the entire next
population, yet the recorded best-ever fitness stays at 2/5 because the
generation loop evaluates offspring without ever rescanning for a new best —
the only best-update lives in evaluateFitness, which evolve calls once before
the loop. -/
theorem best_tracking_code_bug :
    (evolve ⟨1, 1, 0, 1, 1, 0, 1, false⟩ 1 (fun g => (g.headD 0 + 5) / 10)
        ⟨fun n => if n = 5 then 3 / 4 else 0, 0⟩).best_fitness = 2 / 5 ∧
    ((evolve ⟨1, 1, 0, 1, 1, 0, 1, false⟩ 1 (fun g => (g.headD 0 + 5) / 10)
        ⟨fun n => if n = 5 then 3 / 4 else 0, 0⟩).population.map Individual.fitness)
      = [9 / 20] ∧
    (2 / 5 : ℚ) < 9 / 20 := by
  have h0 : initState ⟨1, 1, 0, 1, 1, 0, 1, false⟩ 1 (fun g => (g.headD 0 + 5) / 10)
      ⟨fun n => if n = 5 then 3 / 4 else 0, 0⟩
      = ⟨[⟨[-1], 2 / 5⟩], 2 / 5, ⟨[-1], 2 / 5⟩, [], [],
          ⟨fun n => if n = 5 then 3 / 4 else 0, 1⟩⟩ := by
    norm_num [initState, initializePopulation, randomVector, randomDouble, nextRaw,
      fract, evaluateFitness, maxElement, Individual.default0]
  have hoff : makeOffspring ⟨1, 1, 0, 1, 1, 0, 1, false⟩ [⟨[-1], 2 / 5⟩] 1 []
      ⟨fun n => if n = 5 then 3 / 4 else 0, 1⟩
      = ([⟨[-1 / 2], 2 / 5⟩], ⟨fun n => if n = 5 then 3 / 4 else 0, 8⟩) := by
    norm_num [makeOffspring, tournamentSelection, tournamentLoop, randomNat,
      crossover, mutate, mutateGenes, randomDouble, nextRaw, fract, clamp,
      Individual.default0, List.getD, min_def, max_def]
  rw [evolve, Function.iterate_one, h0, generationStep]
  dsimp only
  rw [hoff]
  dsimp only
  norm_num [replacePopulation, sortDesc, insertDesc, eliteCount]

end MLPGA
